import Mathlib

/-!
Shallow embedding of the `otus_project` blockchain library (`src/lib.rs`).

Modelling conventions, in order of appearance in the source:

* `[u8; 32]` values (public keys, SHA-256 digests, the zero sentinel) are
  modelled as `Nat`, via the injective bytes-to-number reading; no claim
  inspects individual bytes, so the `< 2^256` bound is dropped.
* The external digest pipeline `Sha256(bincode::serialize(BlockContent))`
  (the `sha2` and `bincode` crates, outside this repository; the spec's
  "Hasher"/"Serialization Boundary" collaborators) is modelled as an
  explicit parameter `digest : BlockContent → Nat`.  The spec requires the
  canonical encoding to be injective; `refDigest` below is a concrete
  injective instance used to instantiate theorems on concrete inputs.
* The system clock (`current_timestamp`, nondeterministic) is modelled by
  passing the sampled timestamp `ts : Nat` explicitly to the operations
  that read the clock.
* Rust `panic!` / `unwrap` (fatal errors) are modelled by `Option`:
  a panicking execution returns `none` and produces no new state, so the
  caller's pre-state value is untouched, matching a Rust panic that fires
  before any mutation of `&mut self`.
* `Vec<T>` is `List T`; `Vec::push` is append of a singleton at the end.
-/

/-- `MAX_TRANSACTIONS_PER_BLOCK` from `lib.rs`: the compiled-in cap on the
number of transactions in one block. -/
def MAX_TRANSACTIONS_PER_BLOCK : Nat := 10

/-- The all-zero 32-byte sentinel `[0u8; 32]`, read as a number. -/
def zeroHash : Nat := 0

/-- `Transaction` from `lib.rs`: sender key, recipient key (each `[u8; 32]`,
modelled as `Nat`), and a `u64` amount. -/
structure Transaction where
  from_ : Nat
  to_ : Nat
  amount : Nat
deriving DecidableEq, Repr, Inhabited

/-- `Block` from `lib.rs`. -/
structure Block where
  index : Nat
  timestamp : Nat
  transactions : List Transaction
  previous_hash : Nat
  hash : Nat
deriving DecidableEq, Repr, Inhabited

/-- `BlockContent` from `lib.rs`: the hashing view of a block — every field
except the block's own `hash`. -/
structure BlockContent where
  index : Nat
  timestamp : Nat
  transactions : List Transaction
  previous_hash : Nat
deriving DecidableEq, Repr, Inhabited

/-- `Block::calculate_hash`: digest of the block's content, excluding the
stored `hash` field.  The external SHA-256-over-bincode pipeline is the
`digest` parameter. -/
def Block.calculate_hash (digest : BlockContent → Nat) (b : Block) : Nat :=
  digest { index := b.index, timestamp := b.timestamp,
           transactions := b.transactions, previous_hash := b.previous_hash }

/-- `create_block` from `lib.rs`: builds the successor of `previous_block`
with the freshly sampled timestamp `ts`; panics (`none`) when the clock did
not advance strictly past the previous block's timestamp. -/
def create_block (digest : BlockContent → Nat) (ts : Nat)
    (transactions : List Transaction) (previous_block : Block) : Option Block :=
  let index := previous_block.index + 1
  if ts ≤ previous_block.timestamp then
    none
  else
    let block0 : Block :=
      { index := index, timestamp := ts, transactions := transactions,
        previous_hash := previous_block.hash, hash := zeroHash }
    some { block0 with hash := Block.calculate_hash digest block0 }

/-- `create_genesis_block` from `lib.rs`: index 0, no transactions, zero
sentinel as predecessor digest, own digest computed over the content. -/
def create_genesis_block (digest : BlockContent → Nat) (ts : Nat) : Block :=
  let block0 : Block :=
    { index := 0, timestamp := ts, transactions := [],
      previous_hash := zeroHash, hash := zeroHash }
  { block0 with hash := Block.calculate_hash digest block0 }

/-- `Blockchain` from `lib.rs`. -/
structure Blockchain where
  blocks : List Block
deriving DecidableEq, Repr, Inhabited

/-- `Blockchain::new`: a chain holding exactly the genesis block. -/
def Blockchain.new (digest : BlockContent → Nat) (ts : Nat) : Blockchain :=
  { blocks := [create_genesis_block digest ts] }

/-- `Blockchain::add_block`: panics (`none`) when the batch exceeds
`MAX_TRANSACTIONS_PER_BLOCK`, when the chain has no last block to extend
(`unwrap` on an empty `Vec`), or when `create_block` panics; otherwise
pushes the new block at the end. -/
def Blockchain.add_block (digest : BlockContent → Nat) (ts : Nat)
    (chain : Blockchain) (transactions : List Transaction) : Option Blockchain :=
  if transactions.length > MAX_TRANSACTIONS_PER_BLOCK then
    none
  else
    match chain.blocks.getLast? with
    | none => none
    | some last_block =>
      match create_block digest ts transactions last_block with
      | none => none
      | some new_block => some { blocks := chain.blocks ++ [new_block] }

/-- `Blockchain::get_block`: lookup by position, absent when out of range. -/
def Blockchain.get_block (chain : Blockchain) (index : Nat) : Option Block :=
  chain.blocks.get? index

/-- One loop iteration of `Blockchain::is_valid` for a non-genesis block
`cur` whose predecessor is `prev`: index succession, hash linkage and
digest recomputation. -/
def linkOk (digest : BlockContent → Nat) (prev cur : Block) : Bool :=
  (cur.index == prev.index + 1) &&
  (cur.previous_hash == prev.hash) &&
  (cur.hash == Block.calculate_hash digest cur)

/-- The loop of `Blockchain::is_valid` over positions `1..len`: given the
block at position `i-1`, checks `linkOk` for every later block. -/
def chainChecks (digest : BlockContent → Nat) : Block → List Block → Bool
  | _, [] => true
  | prev, cur :: rest =>
    linkOk digest prev cur && chainChecks digest cur rest

/-- `Blockchain::is_valid`: an empty chain is invalid; the genesis block
must have index 0, the zero sentinel as predecessor and a digest matching
recomputation; every later block must pass `chainChecks`. -/
def Blockchain.is_valid (digest : BlockContent → Nat) (chain : Blockchain) : Bool :=
  match chain.blocks with
  | [] => false
  | genesis :: rest =>
    (genesis.index == 0) &&
    (genesis.previous_hash == zeroHash) &&
    (genesis.hash == Block.calculate_hash digest genesis) &&
    chainChecks digest genesis rest

/-- `PeerId` and `Peer` from `lib.rs`. -/
structure Peer where
  id : Nat
  is_honest : Bool
deriving DecidableEq, Repr, Inhabited

/-- `Peer::new`: a fresh peer is honest. -/
def Peer.new (id : Nat) : Peer :=
  { id := id, is_honest := true }

/-- `Peer::vote_for_transaction`: every peer votes yes unconditionally
(the honesty flag is never consulted). -/
def Peer.vote_for_transaction (_peer : Peer) (_transactions : List Transaction) : Bool :=
  true

/-- `FixedPeerConsensus` from `lib.rs`. -/
structure FixedPeerConsensus where
  peers : List Peer
deriving Repr, Inhabited

/-- `FixedPeerConsensus::new`. -/
def FixedPeerConsensus.new (peers : List Peer) : FixedPeerConsensus :=
  { peers := peers }

/-- `FixedPeerConsensus::peer_count`. -/
def FixedPeerConsensus.peer_count (c : FixedPeerConsensus) : Nat :=
  c.peers.length

/-- `FixedPeerConsensus::majority_threshold`: `peers.len().div_ceil(2)`,
that is `⌈n / 2⌉`. -/
def FixedPeerConsensus.majority_threshold (c : FixedPeerConsensus) : Nat :=
  (c.peers.length + 2 - 1) / 2

/-- `FixedPeerConsensus::propose_block`: reject immediately on an empty
peer set; otherwise count yes votes and delegate to `add_block` exactly
when approvals strictly exceed the majority threshold.  The pair carries
the reported boolean alongside the (possibly extended) chain; `none` is
a panic escaping from `add_block`. -/
def FixedPeerConsensus.propose_block (digest : BlockContent → Nat)
    (c : FixedPeerConsensus) (ts : Nat) (transactions : List Transaction)
    (blockchain : Blockchain) : Option (Bool × Blockchain) :=
  if c.peers.isEmpty then
    some (false, blockchain)
  else
    let approvals :=
      (c.peers.filter (fun peer => peer.vote_for_transaction transactions)).length
    let threshold := c.majority_threshold
    if approvals > threshold then
      (blockchain.add_block digest ts transactions).map (fun chain => (true, chain))
    else
      some (false, blockchain)

/-- A fixed peer set of `n` honest peers, as the library's tests build it. -/
def peersOfCount (n : Nat) : List Peer :=
  (List.range n).map Peer.new

/-- Injective code of one transaction, via the Cantor-style `Nat.pair`. -/
def txCode (t : Transaction) : Nat :=
  Nat.pair t.from_ (Nat.pair t.to_ t.amount)

/-- Injective code of a list of numbers. -/
def listCode : List Nat → Nat
  | [] => 0
  | x :: rest => Nat.pair x (listCode rest) + 1

/-- Modelled from the spec: a concrete stand-in for the external digest
collaborator (`Sha256` over `bincode`'s canonical fixed-field-order
encoding, which the spec requires to be injective on well-typed content).
`refDigest` is a genuinely injective digest used to instantiate the
parametric theorems on concrete inputs. -/
def refDigest (c : BlockContent) : Nat :=
  Nat.pair c.index
    (Nat.pair c.timestamp
      (Nat.pair (listCode (c.transactions.map txCode)) c.previous_hash))

/-- The block that a successful `create_block digest ts txs prev` returns
(proof-side abbreviation, characterized by `create_block_eq_some`). -/
def nextBlock (digest : BlockContent → Nat) (ts : Nat)
    (txs : List Transaction) (prev : Block) : Block :=
  { index := prev.index + 1, timestamp := ts, transactions := txs,
    previous_hash := prev.hash,
    hash := digest { index := prev.index + 1, timestamp := ts,
                     transactions := txs, previous_hash := prev.hash } }

/-- Driver for honest appends: runs `add_block` on each
(sampled timestamp, batch) pair in order, propagating panics. -/
def add_blocks (digest : BlockContent → Nat) :
    Blockchain → List (Nat × List Transaction) → Option Blockchain
  | chain, [] => some chain
  | chain, op :: rest =>
    match chain.add_block digest op.1 op.2 with
    | none => none
    | some c => add_blocks digest c rest

/-- The sampled timestamps strictly increase, starting strictly after
`prev` (the timestamp of the chain's current tail). -/
def tsIncreasing : Nat → List (Nat × List Transaction) → Bool
  | _, [] => true
  | prev, op :: rest => decide (prev < op.1) && tsIncreasing op.1 rest

/-- Every batch in the run respects the per-block transaction cap. -/
def batchesOk (ops : List (Nat × List Transaction)) : Bool :=
  ops.all (fun op => decide (op.2.length ≤ MAX_TRANSACTIONS_PER_BLOCK))

/-- In-place hostile mutation: replace the transaction list of the block
at position `i`, leaving its stored digest untouched. -/
def setTxsAt : List Block → Nat → List Transaction → List Block
  | [], _, _ => []
  | b :: rest, 0, txs => { b with transactions := txs } :: rest
  | b :: rest, i + 1, txs => b :: setTxsAt rest i txs

/-- The chain after tampering with block `i`'s transaction list. -/
def tamperAt (chain : Blockchain) (i : Nat) (txs : List Transaction) : Blockchain :=
  { blocks := setTxsAt chain.blocks i txs }

/-- A sample transaction for concrete instantiations. -/
def txW : Transaction :=
  { from_ := 1, to_ := 2, amount := 3 }

/-- A genesis block sampled at time 5, predecessor for `blockW`. -/
def prevW : Block :=
  create_genesis_block refDigest 5

/-- The successor of `prevW` built at time 7. -/
def blockW : Block :=
  (create_block refDigest 7 [] prevW).getD default

/-- A fresh chain whose genesis was sampled at time 0. -/
def chainW : Blockchain :=
  Blockchain.new refDigest 0

/-- `chainW` extended by one single-transaction block at time 1. -/
def chainTwo : Blockchain :=
  (chainW.add_block refDigest 1 [txW]).getD default

/-- A consensus instance over a single peer. -/
def consOne : FixedPeerConsensus :=
  FixedPeerConsensus.new (peersOfCount 1)

/-- The chain reported back by a rejected proposal against `chainW`. -/
def chainAfterReject : Blockchain :=
  ((consOne.propose_block refDigest 1 [] chainW).getD (false, default)).2

/-- A concrete two-step honest run. -/
def opsW : List (Nat × List Transaction) :=
  [(1, []), (2, [txW])]

/-- The chain produced by running `opsW` from a fresh chain. -/
def chainOps : Blockchain :=
  (add_blocks refDigest chainW opsW).getD default

theorem txCode_injective : Function.Injective txCode := by
  intro a b h
  unfold txCode at h
  obtain ⟨h1, h2⟩ := Nat.pair_eq_pair.mp h
  obtain ⟨h3, h4⟩ := Nat.pair_eq_pair.mp h2
  cases a; cases b; simp_all

theorem listCode_injective : Function.Injective listCode := by
  intro a b h
  induction a generalizing b with
  | nil =>
    cases b with
    | nil => rfl
    | cons y ys => simp [listCode] at h
  | cons x xs ih =>
    cases b with
    | nil => simp [listCode] at h
    | cons y ys =>
      simp only [listCode, Nat.add_right_cancel_iff] at h
      obtain ⟨h1, h2⟩ := Nat.pair_eq_pair.mp h
      rw [h1, ih h2]

theorem refDigest_injective : Function.Injective refDigest := by
  intro a b h
  unfold refDigest at h
  obtain ⟨h1, h2⟩ := Nat.pair_eq_pair.mp h
  obtain ⟨h3, h4⟩ := Nat.pair_eq_pair.mp h2
  obtain ⟨h5, h6⟩ := Nat.pair_eq_pair.mp h4
  have htx : a.transactions = b.transactions := by
    have hmap := listCode_injective h5
    exact (List.map_injective_iff.mpr txCode_injective) hmap
  cases a; cases b; simp_all

theorem create_block_eq_some (digest : BlockContent → Nat) (ts : Nat)
    (txs : List Transaction) (prev : Block) (hts : prev.timestamp < ts) :
    create_block digest ts txs prev = some (nextBlock digest ts txs prev) := by
  simp [create_block, nextBlock, Block.calculate_hash, Nat.not_le.mpr hts]

theorem create_block_eq_none (digest : BlockContent → Nat) (ts : Nat)
    (txs : List Transaction) (prev : Block) (hts : ts ≤ prev.timestamp) :
    create_block digest ts txs prev = none := by
  simp [create_block, hts]

theorem add_block_eq_some (digest : BlockContent → Nat) (ts : Nat)
    (chain : Blockchain) (txs : List Transaction) (last_block : Block)
    (hl : chain.blocks.getLast? = some last_block)
    (hts : last_block.timestamp < ts)
    (hlen : txs.length ≤ MAX_TRANSACTIONS_PER_BLOCK) :
    chain.add_block digest ts txs =
      some { blocks := chain.blocks ++ [nextBlock digest ts txs last_block] } := by
  simp [Blockchain.add_block, hl, Nat.not_lt.mpr hlen,
    create_block_eq_some digest ts txs last_block hts]

theorem linkOk_nextBlock (digest : BlockContent → Nat) (ts : Nat)
    (txs : List Transaction) (prev : Block) :
    linkOk digest prev (nextBlock digest ts txs prev) = true := by
  simp [linkOk, nextBlock, Block.calculate_hash]

theorem chainChecks_append (digest : BlockContent → Nat) (b : Block) :
    ∀ (l : List Block) (p : Block),
      chainChecks digest p (l ++ [b]) =
        (chainChecks digest p l && linkOk digest (l.getLastD p) b) := by
  intro l
  induction l with
  | nil => intro p; simp [chainChecks]
  | cons c rest ih =>
    intro p
    simp only [List.cons_append, chainChecks, List.append_eq]
    rw [ih c, List.getLastD_cons, Bool.and_assoc]

theorem new_valid (digest : BlockContent → Nat) (ts : Nat) :
    (Blockchain.new digest ts).is_valid digest = true := by
  simp [Blockchain.new, Blockchain.is_valid, create_genesis_block,
    Block.calculate_hash, chainChecks, zeroHash]

theorem add_block_some_inv (digest : BlockContent → Nat) (ts : Nat)
    (chain : Blockchain) (txs : List Transaction) (c : Blockchain)
    (h : chain.add_block digest ts txs = some c) :
    ∃ last_block, chain.blocks.getLast? = some last_block ∧
      txs.length ≤ MAX_TRANSACTIONS_PER_BLOCK ∧
      last_block.timestamp < ts ∧
      c = { blocks := chain.blocks ++ [nextBlock digest ts txs last_block] } := by
  unfold Blockchain.add_block at h
  split at h
  · exact absurd h (by simp)
  · rename_i hlen
    split at h
    · exact absurd h (by simp)
    · rename_i last_block hl
      split at h
      · exact absurd h (by simp)
      · rename_i nb hcb
        injection h with h
        unfold create_block at hcb
        dsimp only at hcb
        split at hcb
        · exact absurd hcb (by simp)
        · rename_i hts
          injection hcb with hcb
          refine ⟨last_block, hl, by omega, by omega, ?_⟩
          rw [← h, ← hcb]
          rfl

theorem add_block_preserves_valid (digest : BlockContent → Nat) (ts : Nat)
    (chain : Blockchain) (txs : List Transaction) (c : Blockchain)
    (hv : chain.is_valid digest = true)
    (h : chain.add_block digest ts txs = some c) :
    c.is_valid digest = true := by
  obtain ⟨last_block, hl, hlen, hts, rfl⟩ :=
    add_block_some_inv digest ts chain txs c h
  cases hb : chain.blocks with
  | nil => rw [hb] at hl; exact absurd hl (by simp)
  | cons g rest =>
    rw [hb] at hl
    simp only [Blockchain.is_valid, hb, Bool.and_eq_true] at hv
    obtain ⟨⟨⟨hg0, hgp⟩, hgh⟩, hcc⟩ := hv
    have hlast : rest.getLastD g = last_block := by
      rw [← List.getLastD_cons g g rest, List.getLastD_eq_getLast? g (g :: rest), hl]
      rfl
    simp only [Blockchain.is_valid, List.cons_append, Bool.and_eq_true]
    refine ⟨⟨⟨hg0, hgp⟩, hgh⟩, ?_⟩
    rw [chainChecks_append, hlast]
    simp [hcc, linkOk_nextBlock]

/-- Claim C5: `Blockchain::new` returns a ledger with exactly one block,
of index 0, empty transactions, the all-zero sentinel as predecessor
digest, and a stored digest matching recomputation. -/
theorem c5_genesis_invariants (digest : BlockContent → Nat) (ts : Nat) :
    (Blockchain.new digest ts).blocks.length = 1 ∧
    ((Blockchain.new digest ts).blocks.getD 0 default).index = 0 ∧
    ((Blockchain.new digest ts).blocks.getD 0 default).transactions = [] ∧
    ((Blockchain.new digest ts).blocks.getD 0 default).previous_hash = zeroHash ∧
    ((Blockchain.new digest ts).blocks.getD 0 default).hash =
      Block.calculate_hash digest ((Blockchain.new digest ts).blocks.getD 0 default) :=
  ⟨rfl, rfl, rfl, rfl, rfl⟩

/-- Claim C10: a `Blockchain` value with an empty block sequence (reachable
only outside the constructor, e.g. by deserialization) is reported invalid,
not an error: `is_valid` returns `false` on it. -/
theorem c10_empty_chain_invalid (digest : BlockContent → Nat) :
    (Blockchain.mk []).is_valid digest = false :=
  rfl

/-- Claim C8: `Block::calculate_hash` is a pure function of
(index, timestamp, transactions, previous_hash) only — two blocks agreeing
on those four fields yield the same digest regardless of their stored
`hash` fields, for every digest function. -/
theorem c8_hash_ignores_stored_hash (digest : BlockContent → Nat) (b1 b2 : Block)
    (h1 : b1.index = b2.index) (h2 : b1.timestamp = b2.timestamp)
    (h3 : b1.transactions = b2.transactions)
    (h4 : b1.previous_hash = b2.previous_hash) :
    Block.calculate_hash digest b1 = Block.calculate_hash digest b2 := by
  simp [Block.calculate_hash, h1, h2, h3, h4]

/-- Witness for C8: two concrete blocks differing only in the stored hash
field get the same content digest. -/
theorem c8_witness :
    Block.calculate_hash refDigest
        { index := 0, timestamp := 1, transactions := [txW],
          previous_hash := 0, hash := 5 } =
      Block.calculate_hash refDigest
        { index := 0, timestamp := 1, transactions := [txW],
          previous_hash := 0, hash := 99 } :=
  c8_hash_ignores_stored_hash refDigest _ _ rfl rfl rfl rfl

/-- Claim C7: building a successor block fails fatally (`none`, modelling
the panic) whenever the sampled timestamp does not strictly exceed the
predecessor's, and every successfully built successor has a timestamp
strictly greater than its predecessor's. -/
theorem c7_timestamp_guard (digest : BlockContent → Nat) (ts1 ts2 : Nat)
    (txs : List Transaction) (prev b : Block)
    (h1 : ts1 ≤ prev.timestamp)
    (h2 : create_block digest ts2 txs prev = some b) :
    create_block digest ts1 txs prev = none ∧ prev.timestamp < b.timestamp := by
  refine ⟨create_block_eq_none digest ts1 txs prev h1, ?_⟩
  unfold create_block at h2
  split at h2
  · exact absurd h2 (by simp)
  · cases h2
    simpa using by omega

/-- Witness for C7: at predecessor timestamp 5, sampling 3 panics while
sampling 7 builds a block with timestamp above 5. -/
theorem c7_witness :
    create_block refDigest 3 [] prevW = none ∧ prevW.timestamp < blockW.timestamp :=
  c7_timestamp_guard refDigest 3 7 [] prevW blockW (by decide) (by rfl)

/-- Claim C4: `add_block` with a batch of exactly
`MAX_TRANSACTIONS_PER_BLOCK` transactions succeeds and appends one block,
while any batch of 11 or more transactions fails fatally (`none`, the
panic firing before any mutation, so the pre-state ledger value is
untouched). -/
theorem c4_capacity_enforcement (digest : BlockContent → Nat) (ts : Nat)
    (chain : Blockchain) (txs txs2 : List Transaction) (last_block : Block)
    (hl : chain.blocks.getLast? = some last_block)
    (hts : last_block.timestamp < ts)
    (hlen : txs.length = MAX_TRANSACTIONS_PER_BLOCK)
    (hlen2 : MAX_TRANSACTIONS_PER_BLOCK + 1 ≤ txs2.length) :
    (chain.add_block digest ts txs).map (fun c => c.blocks.length) =
        some (chain.blocks.length + 1) ∧
      chain.add_block digest ts txs2 = none := by
  constructor
  · rw [add_block_eq_some digest ts chain txs last_block hl hts (Nat.le_of_eq hlen)]
    simp
  · unfold Blockchain.add_block
    rw [if_pos]
    omega

/-- Witness for C4: on a fresh chain, a 10-transaction batch appends
(2 blocks total) and an 11-transaction batch panics. -/
theorem c4_witness :
    (chainW.add_block refDigest 1 (List.replicate 10 txW)).map
        (fun c => c.blocks.length) = some (chainW.blocks.length + 1) ∧
      chainW.add_block refDigest 1 (List.replicate 11 txW) = none :=
  c4_capacity_enforcement refDigest 1 chainW (List.replicate 10 txW)
    (List.replicate 11 txW) (create_genesis_block refDigest 0)
    (by rfl) (by decide) (by decide) (by decide)

/-- Claim C6: whenever `propose_block` reports rejection — including the
immediate rejection on an empty peer set — the ledger it hands back is
exactly the ledger it was given. -/
theorem c6_rejection_frame (digest : BlockContent → Nat)
    (cons : FixedPeerConsensus) (ts : Nat) (txs : List Transaction)
    (chain c2 : Blockchain)
    (h : cons.propose_block digest ts txs chain = some (false, c2)) :
    c2 = chain := by
  unfold FixedPeerConsensus.propose_block at h
  split at h
  · cases h; rfl
  · dsimp only at h
    split at h
    · cases hab : chain.add_block digest ts txs with
      | none => rw [hab] at h; exact absurd h (by simp)
      | some c => rw [hab] at h; exact absurd h (by simp)
    · cases h; rfl

/-- Witness for C6: the chain handed back by a rejected single-peer
proposal is the original fresh chain. -/
theorem c6_witness : chainAfterReject = chainW :=
  c6_rejection_frame refDigest consOne 1 [] chainW chainAfterReject (by rfl)

theorem peersOfCount_length (n : Nat) : (peersOfCount n).length = n := by
  simp [peersOfCount]

theorem filter_vote_length (l : List Peer) (txs : List Transaction) :
    (l.filter (fun peer => peer.vote_for_transaction txs)).length = l.length := by
  induction l with
  | nil => rfl
  | cons p rest ih => simp [List.filter, Peer.vote_for_transaction, ih]

/-- Claim C1 counterexample: with exactly 2 peers all voting yes, the code
ACCEPTS the proposal (reports `true` and appends, growing the chain to 2
blocks), because approvals = 2 strictly exceed threshold = ⌈2/2⌉ = 1 —
whereas the claim asserts rejection for peer count 2. -/
theorem c1_counterexample :
    ((FixedPeerConsensus.new (peersOfCount 2)).propose_block refDigest 1 []
        chainW).map (fun r => (r.1, r.2.blocks.length)) = some (true, 2) := by
  rfl

/-- Claim C1 as amended: under unconditional-yes voting, `propose_block`
on a fresh chain accepts (returns `true` and appends, total 2 blocks)
exactly for peer counts 2, 3, 4, 5 and rejects (returns `false`, chain
still 1 block) for peer counts 0 and 1 — the cutoff `n > ⌈n/2⌉` holds
already at n = 2, not only from n = 3. -/
theorem c1_majority_amended (digest : BlockContent → Nat) (gts ts : Nat)
    (txs : List Transaction) (h1 : gts < ts)
    (h2 : txs.length ≤ MAX_TRANSACTIONS_PER_BLOCK) (n : Nat) (hn : n ≤ 5) :
    ((FixedPeerConsensus.new (peersOfCount n)).propose_block digest ts txs
        (Blockchain.new digest gts)).map (fun r => (r.1, r.2.blocks.length)) =
      some (decide (2 ≤ n), if 2 ≤ n then 2 else 1) := by
  have hadd := add_block_eq_some digest ts (Blockchain.new digest gts) txs
    (create_genesis_block digest gts) rfl h1 h2
  interval_cases n
  · rfl
  · rfl
  · show (((Blockchain.new digest gts).add_block digest ts txs).map
        (fun chain => (true, chain))).map (fun r => (r.1, r.2.blocks.length)) =
      some (decide (2 ≤ 2), if 2 ≤ 2 then 2 else 1)
    rw [hadd]
    simp [Blockchain.new]
  · show (((Blockchain.new digest gts).add_block digest ts txs).map
        (fun chain => (true, chain))).map (fun r => (r.1, r.2.blocks.length)) =
      some (decide (2 ≤ 3), if 2 ≤ 3 then 2 else 1)
    rw [hadd]
    simp [Blockchain.new]
  · show (((Blockchain.new digest gts).add_block digest ts txs).map
        (fun chain => (true, chain))).map (fun r => (r.1, r.2.blocks.length)) =
      some (decide (2 ≤ 4), if 2 ≤ 4 then 2 else 1)
    rw [hadd]
    simp [Blockchain.new]
  · show (((Blockchain.new digest gts).add_block digest ts txs).map
        (fun chain => (true, chain))).map (fun r => (r.1, r.2.blocks.length)) =
      some (decide (2 ≤ 5), if 2 ≤ 5 then 2 else 1)
    rw [hadd]
    simp [Blockchain.new]

/-- Witness for the amended C1 at peer count 3 on concrete inputs. -/
theorem c1_witness :
    ((FixedPeerConsensus.new (peersOfCount 3)).propose_block refDigest 1 []
        (Blockchain.new refDigest 0)).map (fun r => (r.1, r.2.blocks.length)) =
      some (decide (2 ≤ 3), if 2 ≤ 3 then 2 else 1) :=
  c1_majority_amended refDigest 0 1 [] (by decide) (by decide) 3 (by decide)

theorem chainChecks_tamper (digest : BlockContent → Nat)
    (hinj : Function.Injective digest) :
    ∀ (l : List Block) (p : Block) (j : Nat) (txs2 : List Transaction),
      chainChecks digest p l = true → j < l.length →
      txs2 ≠ (l.getD j default).transactions →
      chainChecks digest p (setTxsAt l j txs2) = false := by
  intro l
  induction l with
  | nil => intro p j txs2 h hj hne; simp at hj
  | cons c rest ih =>
    intro p j txs2 h hj hne
    simp only [chainChecks, Bool.and_eq_true] at h
    obtain ⟨hlink, hrest⟩ := h
    cases j with
    | zero =>
      simp only [List.getD_cons_zero] at hne
      have hch : c.hash = Block.calculate_hash digest c := by
        simp only [linkOk, Bool.and_eq_true, beq_iff_eq] at hlink
        exact hlink.2
      have hneq : ({ c with transactions := txs2 } : Block).hash ≠
          Block.calculate_hash digest { c with transactions := txs2 } := by
        intro heq
        have heq2 : Block.calculate_hash digest c =
            Block.calculate_hash digest { c with transactions := txs2 } := by
          rw [← hch]
          exact heq
        simp only [Block.calculate_hash] at heq2
        have := hinj heq2
        simp only [BlockContent.mk.injEq] at this
        exact hne this.2.2.1.symm
      have hfalse : (({ c with transactions := txs2 } : Block).hash ==
          Block.calculate_hash digest { c with transactions := txs2 }) = false :=
        beq_eq_false_iff_ne.mpr hneq
      simp [setTxsAt, chainChecks, linkOk, hfalse]
    | succ j' =>
      simp only [List.getD_cons_succ] at hne
      simp only [setTxsAt, chainChecks]
      rw [ih c j' txs2 hrest (by simp only [List.length_cons] at hj; omega) hne]
      simp

/-- Claim C2: on any valid ledger, replacing the transaction list of any
non-genesis block with a different list — without recomputing that block's
stored digest — makes `is_valid` return `false`, for every collision-free
digest function (the spec's §4.1 injectivity contract on the canonical
encoding). -/
theorem c2_tamper_detection (digest : BlockContent → Nat) (chain : Blockchain)
    (i : Nat) (txs2 : List Transaction) (hinj : Function.Injective digest)
    (hv : chain.is_valid digest = true) (h1 : 1 ≤ i)
    (h2 : i < chain.blocks.length)
    (hne : txs2 ≠ (chain.blocks.getD i default).transactions) :
    (tamperAt chain i txs2).is_valid digest = false := by
  cases hb : chain.blocks with
  | nil => rw [hb] at h2; simp at h2
  | cons g rest =>
    cases i with
    | zero => omega
    | succ j =>
      rw [hb] at hne h2
      simp only [Blockchain.is_valid, hb, Bool.and_eq_true] at hv
      obtain ⟨⟨⟨hg0, hgp⟩, hgh⟩, hcc⟩ := hv
      simp only [tamperAt, hb, setTxsAt, Blockchain.is_valid]
      rw [chainChecks_tamper digest hinj rest g j txs2 hcc
        (by simp only [List.length_cons] at h2; omega)
        (by simpa using hne)]
      simp

/-- Witness for C2: clearing the transaction list of block 1 of a concrete
valid two-block chain invalidates it, under the injective `refDigest`. -/
theorem c2_witness : (tamperAt chainTwo 1 []).is_valid refDigest = false :=
  c2_tamper_detection refDigest chainTwo 1 [] refDigest_injective
    (by decide) (by decide) (by decide) (by decide)

theorem add_blocks_sound (digest : BlockContent → Nat) :
    ∀ (ops : List (Nat × List Transaction)) (chain : Blockchain) (last_block : Block),
      chain.is_valid digest = true →
      chain.blocks.getLast? = some last_block →
      tsIncreasing last_block.timestamp ops = true →
      batchesOk ops = true →
      ∃ c, add_blocks digest chain ops = some c ∧ c.is_valid digest = true := by
  intro ops
  induction ops with
  | nil => intro chain last_block hv _ _ _; exact ⟨chain, rfl, hv⟩
  | cons op rest ih =>
    intro chain last_block hv hl hts hb
    obtain ⟨ts, txs⟩ := op
    simp only [tsIncreasing, Bool.and_eq_true, decide_eq_true_eq] at hts
    obtain ⟨hlt, hrest⟩ := hts
    simp only [batchesOk, List.all_cons, Bool.and_eq_true, decide_eq_true_eq] at hb
    obtain ⟨hlen, hbrest⟩ := hb
    have hadd := add_block_eq_some digest ts chain txs last_block hl hlt hlen
    have hv1 := add_block_preserves_valid digest ts chain txs _ hv hadd
    have hl1 : ({ blocks := chain.blocks ++ [nextBlock digest ts txs last_block] } :
        Blockchain).blocks.getLast? = some (nextBlock digest ts txs last_block) := by
      simp [List.getLast?_concat]
    have hts1 : tsIncreasing (nextBlock digest ts txs last_block).timestamp rest = true :=
      hrest
    obtain ⟨c, hc, hcv⟩ := ih _ (nextBlock digest ts txs last_block) hv1 hl1 hts1
      (by simpa [batchesOk] using hbrest)
    refine ⟨c, ?_, hcv⟩
    simp only [add_blocks, hadd]
    exact hc

/-- Claim C3: for every sequence of batches within the size cap, appending
them in order from a fresh chain — each sampled timestamp strictly above
its predecessor's — succeeds (no panic) and yields a chain `is_valid`
reports `true` on. -/
theorem c3_honest_appends_valid (digest : BlockContent → Nat) (gts : Nat)
    (ops : List (Nat × List Transaction))
    (hts : tsIncreasing gts ops = true) (hb : batchesOk ops = true) :
    (add_blocks digest (Blockchain.new digest gts) ops).map
      (fun c => c.is_valid digest) = some true := by
  obtain ⟨c, hc, hcv⟩ := add_blocks_sound digest ops (Blockchain.new digest gts)
    (create_genesis_block digest gts) (new_valid digest gts) rfl hts hb
  rw [hc]
  simp [hcv]

/-- Witness for C3: a concrete two-batch honest run stays valid. -/
theorem c3_witness :
    (add_blocks refDigest (Blockchain.new refDigest 0) opsW).map
      (fun c => c.is_valid refDigest) = some true :=
  c3_honest_appends_valid refDigest 0 opsW (by decide) (by decide)

theorem add_blocks_valid (digest : BlockContent → Nat) :
    ∀ (ops : List (Nat × List Transaction)) (chain c : Blockchain),
      chain.is_valid digest = true → add_blocks digest chain ops = some c →
      c.is_valid digest = true := by
  intro ops
  induction ops with
  | nil =>
    intro chain c hv h
    injection h with h
    rw [← h]
    exact hv
  | cons op rest ih =>
    intro chain c hv h
    simp only [add_blocks] at h
    cases hab : chain.add_block digest op.1 op.2 with
    | none => rw [hab] at h; exact absurd h (by simp)
    | some c1 =>
      rw [hab] at h
      exact ih c1 c (add_block_preserves_valid digest op.1 chain op.2 c1 hv hab) h

theorem chainChecks_linkage (digest : BlockContent → Nat) :
    ∀ (l : List Block) (p : Block), chainChecks digest p l = true →
      ∀ i, i + 1 < (p :: l).length →
        ((p :: l).getD (i + 1) default).index = ((p :: l).getD i default).index + 1 ∧
        ((p :: l).getD (i + 1) default).previous_hash = ((p :: l).getD i default).hash := by
  intro l
  induction l with
  | nil => intro p _ i hi; simp at hi
  | cons c rest ih =>
    intro p h i hi
    simp only [chainChecks, Bool.and_eq_true] at h
    obtain ⟨hlink, hrest⟩ := h
    cases i with
    | zero =>
      simp only [linkOk, Bool.and_eq_true, beq_iff_eq] at hlink
      obtain ⟨⟨hidx, hprev⟩, _⟩ := hlink
      simp only [List.getD_cons_zero, List.getD_cons_succ]
      exact ⟨hidx, hprev⟩
    | succ j =>
      have hj := ih c hrest j
        (by simp only [List.length_cons] at hi ⊢; omega)
      simpa only [List.getD_cons_succ] using hj

/-- Claim C9: in every ledger reachable from `Blockchain::new` by
successful `add_block` calls, each adjacent pair of blocks satisfies
index succession and predecessor-digest linkage. -/
theorem c9_sequential_linkage (digest : BlockContent → Nat) (gts : Nat)
    (ops : List (Nat × List Transaction)) (c : Blockchain)
    (h : add_blocks digest (Blockchain.new digest gts) ops = some c)
    (i : Nat) (hi : i + 1 < c.blocks.length) :
    (c.blocks.getD (i + 1) default).index = (c.blocks.getD i default).index + 1 ∧
    (c.blocks.getD (i + 1) default).previous_hash = (c.blocks.getD i default).hash := by
  have hv := add_blocks_valid digest ops (Blockchain.new digest gts) c
    (new_valid digest gts) h
  cases hb : c.blocks with
  | nil => rw [hb] at hi; simp at hi
  | cons g rest =>
    rw [hb] at hi
    simp only [Blockchain.is_valid, hb, Bool.and_eq_true] at hv
    exact chainChecks_linkage digest rest g hv.2 i hi

/-- Witness for C9: adjacent linkage holds at position 0/1 of a concrete
chain reached by a two-step honest run. -/
theorem c9_witness :
    (chainOps.blocks.getD 1 default).index = (chainOps.blocks.getD 0 default).index + 1 ∧
    (chainOps.blocks.getD 1 default).previous_hash = (chainOps.blocks.getD 0 default).hash :=
  c9_sequential_linkage refDigest 0 opsW chainOps (by rfl) 0 (by decide)
